import Mathlib

/-!
Shallow embedding of the lunisolar event-computation engine of the
hindu-calendar repository (src/src/astronomy.py, src/src/cli.py,
src/server/app.py), together with theorems settling the frozen claims.

Conventions of the embedding:
* real-valued quantities (ecliptic longitudes in degrees, instants in
  seconds) are modelled as rationals;
* Python's `%` on floats with a positive modulus is `pymod`;
* instants are seconds since a fixed epoch (civil dates are converted with
  the standard Gregorian day-number formula, matching the Julian-day use in
  the source);
* the external ephemeris backend is abstracted as a function parameter
  (`f : instant -> wrapped Moon-Sun elongation` for the root finder,
  `sid : instant -> sidereal solar longitude` for the month mapper), since
  the source obtains these from skyfield;
* aware datetimes are pairs (UTC seconds, display offset seconds); a
  timezone is a function from UTC seconds to offset seconds.
-/

namespace HinduCalendar

/-- Python's `x % m` for rationals with positive modulus `m`. -/
def pymod (x m : ℚ) : ℚ := x - m * ⌊x / m⌋

theorem pymod_nonneg (x : ℚ) {m : ℚ} (hm : 0 < m) : 0 ≤ pymod x m := by
  have h1 : (⌊x / m⌋ : ℚ) ≤ x / m := Int.floor_le (x / m)
  have h2 : m * (⌊x / m⌋ : ℚ) ≤ m * (x / m) :=
    mul_le_mul_of_nonneg_left h1 (le_of_lt hm)
  have h3 : m * (x / m) = x := by field_simp
  unfold pymod
  linarith

theorem pymod_lt (x : ℚ) {m : ℚ} (hm : 0 < m) : pymod x m < m := by
  have h1 : x / m < (⌊x / m⌋ : ℚ) + 1 := Int.lt_floor_add_one (x / m)
  have h2 : m * (x / m) < m * ((⌊x / m⌋ : ℚ) + 1) := by
    exact (mul_lt_mul_left hm).mpr h1
  have h3 : m * (x / m) = x := by field_simp
  unfold pymod
  nlinarith

/-- Embeds `tithi_number_at` (astronomy.py lines 59-62); the ecliptic
longitudes of Sun and Moon, produced there by `_ecliptic_longitudes`, are
taken as arguments. -/
def tithi_number_at (lam_sun lam_moon : ℚ) : ℤ :=
  ⌊pymod (lam_moon - lam_sun) 360 / 12⌋ + 1

/-- Embeds `paksha_for_tithi` (astronomy.py lines 64-65). -/
def paksha_for_tithi (n : ℤ) : String :=
  if 1 ≤ n ∧ n ≤ 15 then "Shukla" else "Krishna"

/-- Python's `str.lower` restricted to ASCII, as used on paksha labels. -/
def pyLower (s : String) : String := String.mk (s.data.map Char.toLower)

/-- Embeds `tithi_abs` (astronomy.py lines 67-68). -/
def tithi_abs (paksha : String) (ordinal : ℤ) : ℤ :=
  if pyLower paksha = "shukla" then ordinal else 15 + ordinal

/-- Embeds the `_RAHU_SEG` weekday table (astronomy.py line 96);
index 0 is Monday, index 6 is Sunday, as with Python's `date.weekday()`. -/
def _RAHU_SEG : Fin 7 → ℤ := ![2, 7, 5, 6, 4, 3, 8]

/-- Embeds `rahu_kaal_for_day` (astronomy.py lines 98-107); the local
sunrise `sr` and sunset `ss` (seconds) come from the external rise-set
provider and are taken as arguments, `weekday` is the date's weekday. -/
def rahu_kaal_for_day (sr ss : ℚ) (weekday : Fin 7) : ℚ × ℚ :=
  let ss' := if ss ≤ sr then sr + 43200 else ss
  let span := max 1 (ss' - sr)
  let seg_len := span / 8
  let seg := _RAHU_SEG weekday
  let start := sr + ((seg : ℚ) - 1) * seg_len
  (start, start + seg_len)

/-- C2: for Sun and Moon ecliptic longitudes normalized into [0,360),
`tithi_number_at` equals `floor(((moonLon - sunLon) mod 360) / 12) + 1` and
always lies in [1,30]. -/
theorem tithi_number_at_spec (s m : ℚ) (hs0 : 0 ≤ s) (hs1 : s < 360)
    (hm0 : 0 ≤ m) (hm1 : m < 360) :
    tithi_number_at s m = ⌊pymod (m - s) 360 / 12⌋ + 1 ∧
      1 ≤ tithi_number_at s m ∧ tithi_number_at s m ≤ 30 := by
  refine ⟨rfl, ?_, ?_⟩
  · have h0 : (0 : ℚ) ≤ pymod (m - s) 360 := pymod_nonneg _ (by norm_num)
    have : (0 : ℤ) ≤ ⌊pymod (m - s) 360 / 12⌋ := by
      apply Int.floor_nonneg.mpr
      positivity
    unfold tithi_number_at
    omega
  · have h1 : pymod (m - s) 360 < 360 := pymod_lt _ (by norm_num)
    have : ⌊pymod (m - s) 360 / 12⌋ < 30 := by
      apply Int.floor_lt.mpr
      push_cast
      linarith
    unfold tithi_number_at
    omega

/-- Witness for C2 at Sun longitude 0 and Moon longitude 0. -/
theorem tithi_number_at_spec_witness :
    tithi_number_at 0 0 = ⌊pymod ((0 : ℚ) - 0) 360 / 12⌋ + 1 ∧
      1 ≤ tithi_number_at 0 0 ∧ tithi_number_at 0 0 ≤ 30 :=
  tithi_number_at_spec 0 0 (by norm_num) (by norm_num) (by norm_num) (by norm_num)

/-- C9: `paksha_for_tithi` and `tithi_abs` are mutual inverses: for every
tithi n in [1,30] with ordinal o = n (n ≤ 15) or n - 15 (otherwise),
`tithi_abs (paksha_for_tithi n) o = n`; conversely for every paksha label in
the set produced by `paksha_for_tithi` and every ordinal in [1,15],
`tithi_abs` lands on a tithi with that paksha and ordinal. -/
theorem paksha_tithi_abs_inverse (n : ℤ) (hn1 : 1 ≤ n) (hn2 : n ≤ 30)
    (p : String) (hp : p = "Shukla" ∨ p = "Krishna")
    (o : ℤ) (ho1 : 1 ≤ o) (ho2 : o ≤ 15) :
    tithi_abs (paksha_for_tithi n) (if n ≤ 15 then n else n - 15) = n ∧
      paksha_for_tithi (tithi_abs p o) = p ∧
      (if tithi_abs p o ≤ 15 then tithi_abs p o else tithi_abs p o - 15) = o := by
  have hlow1 : pyLower "Shukla" = "shukla" := by decide
  have hlow2 : ¬ (pyLower "Krishna" = "shukla") := by decide
  refine ⟨?_, ?_, ?_⟩
  · by_cases h : n ≤ 15
    · have e1 : paksha_for_tithi n = "Shukla" := by
        unfold paksha_for_tithi; rw [if_pos ⟨hn1, h⟩]
      rw [if_pos h, e1]
      unfold tithi_abs
      rw [if_pos hlow1]
    · have e1 : paksha_for_tithi n = "Krishna" := by
        unfold paksha_for_tithi; rw [if_neg (by omega : ¬ (1 ≤ n ∧ n ≤ 15))]
      rw [if_neg h, e1]
      unfold tithi_abs
      rw [if_neg hlow2]
      omega
  · rcases hp with hp | hp <;> subst hp
    · have e1 : tithi_abs "Shukla" o = o := by
        unfold tithi_abs; rw [if_pos hlow1]
      rw [e1]
      unfold paksha_for_tithi
      rw [if_pos ⟨ho1, ho2⟩]
    · have e1 : tithi_abs "Krishna" o = 15 + o := by
        unfold tithi_abs; rw [if_neg hlow2]
      rw [e1]
      unfold paksha_for_tithi
      rw [if_neg (by omega : ¬ (1 ≤ 15 + o ∧ 15 + o ≤ 15))]
  · rcases hp with hp | hp <;> subst hp
    · have e1 : tithi_abs "Shukla" o = o := by
        unfold tithi_abs; rw [if_pos hlow1]
      rw [e1, if_pos ho2]
    · have e1 : tithi_abs "Krishna" o = 15 + o := by
        unfold tithi_abs; rw [if_neg hlow2]
      rw [e1, if_neg (by omega : ¬ (15 + o ≤ 15))]
      omega

/-- Witness for C9 at tithi 20, paksha "Krishna", ordinal 5. -/
theorem paksha_tithi_abs_inverse_witness :
    tithi_abs (paksha_for_tithi 20) (if (20 : ℤ) ≤ 15 then 20 else 20 - 15) = 20 ∧
      paksha_for_tithi (tithi_abs "Krishna" 5) = "Krishna" ∧
      (if tithi_abs "Krishna" 5 ≤ 15 then tithi_abs "Krishna" 5
        else tithi_abs "Krishna" 5 - 15) = 5 :=
  paksha_tithi_abs_inverse 20 (by norm_num) (by norm_num) "Krishna" (Or.inr rfl)
    5 (by norm_num) (by norm_num)

/-- Spec-side abbreviation for the (possibly substituted, 1-second-floored)
daylight span used by `rahu_kaal_for_day`. -/
def rahu_span (sr ss : ℚ) : ℚ :=
  max 1 ((if ss ≤ sr then sr + 43200 else ss) - sr)

theorem rahu_span_pos (sr ss : ℚ) : 0 < rahu_span sr ss := by
  unfold rahu_span
  exact lt_of_lt_of_le one_pos (le_max_left _ _)

theorem rahu_kaal_for_day_fst (sr ss : ℚ) (weekday : Fin 7) :
    (rahu_kaal_for_day sr ss weekday).1 =
      sr + ((_RAHU_SEG weekday : ℚ) - 1) * (rahu_span sr ss / 8) := rfl

theorem rahu_kaal_for_day_snd (sr ss : ℚ) (weekday : Fin 7) :
    (rahu_kaal_for_day sr ss weekday).2 =
      (rahu_kaal_for_day sr ss weekday).1 + rahu_span sr ss / 8 := rfl

/-- C3 counterexample: with sunrise 0 s, sunset 1/2 s (sunset strictly after
sunrise, so no substitution happens) the eight reconstructed segments each
have the returned window's length, and they sum to `max 1 (ss - sr) = 1`
second, not to the full daylight of 1/2 second. -/
theorem rahu_kaal_segments_counterexample :
    ¬ (8 * ((rahu_kaal_for_day 0 (1/2) 0).2 - (rahu_kaal_for_day 0 (1/2) 0).1)
        = (1 : ℚ)/2 - 0) := by
  have hs : rahu_span 0 (1/2) = 1 := by
    unfold rahu_span
    rw [if_neg (by norm_num : ¬ ((1 : ℚ)/2 ≤ 0))]
    exact max_eq_left (by norm_num)
  rw [rahu_kaal_for_day_snd, hs]
  ring_nf
  norm_num

/-- C3 amended: the returned window is the k-th of 8 equal segments of
length `rahu_span / 8` where `rahu_span = max (1 second) (ss' - sr)` and
`ss'` is the (possibly substituted) sunset; the window always has strictly
positive duration; the 8 equal segments sum to `rahu_span`, which equals the
full daylight `ss' - sr` whenever that daylight is at least 1 second (in
particular always when `ss ≤ sr`, where the substituted span is 12 hours). -/
theorem rahu_kaal_for_day_spec (sr ss : ℚ) (weekday : Fin 7) :
    (rahu_kaal_for_day sr ss weekday).1 =
        sr + ((_RAHU_SEG weekday : ℚ) - 1) * (rahu_span sr ss / 8) ∧
      (rahu_kaal_for_day sr ss weekday).2 =
        sr + (_RAHU_SEG weekday : ℚ) * (rahu_span sr ss / 8) ∧
      0 < (rahu_kaal_for_day sr ss weekday).2 - (rahu_kaal_for_day sr ss weekday).1 ∧
      8 * ((rahu_kaal_for_day sr ss weekday).2 - (rahu_kaal_for_day sr ss weekday).1)
        = rahu_span sr ss ∧
      (1 ≤ (if ss ≤ sr then sr + 43200 else ss) - sr →
        8 * ((rahu_kaal_for_day sr ss weekday).2 - (rahu_kaal_for_day sr ss weekday).1)
          = (if ss ≤ sr then sr + 43200 else ss) - sr) ∧
      (ss ≤ sr → (if ss ≤ sr then sr + 43200 else ss) - sr = 43200) := by
  have h1 := rahu_kaal_for_day_fst sr ss weekday
  have h2 := rahu_kaal_for_day_snd sr ss weekday
  have hd : (rahu_kaal_for_day sr ss weekday).2 - (rahu_kaal_for_day sr ss weekday).1
      = rahu_span sr ss / 8 := by rw [h2]; ring
  have hpos := rahu_span_pos sr ss
  refine ⟨h1, ?_, ?_, ?_, ?_, ?_⟩
  · rw [h2, h1]; ring
  · rw [hd]; exact div_pos hpos (by norm_num)
  · rw [hd]; ring
  · intro h
    have hm : rahu_span sr ss = (if ss ≤ sr then sr + 43200 else ss) - sr := by
      unfold rahu_span; exact max_eq_right h
    rw [hd, ← hm]; ring
  · intro h
    rw [if_pos h]; ring

/-- Witness for C3 amended, at sunrise 21600 s, sunset 64800 s, Monday. -/
theorem rahu_kaal_for_day_spec_witness :
    8 * ((rahu_kaal_for_day 21600 64800 0).2 - (rahu_kaal_for_day 21600 64800 0).1)
      = (if (64800 : ℚ) ≤ 21600 then (21600 : ℚ) + 43200 else 64800) - 21600 :=
  (rahu_kaal_for_day_spec 21600 64800 0).2.2.2.2.1 (by norm_num)

/-- An aware datetime: a UTC instant (seconds) plus the display offset
(seconds) of the zone it is expressed in. `astimezone` keeps `utc` and
changes `off`; comparisons between aware datetimes compare `utc`. -/
structure Instant where
  utc : ℚ
  off : ℚ
deriving DecidableEq

/-- Python's `datetime.date()` on an aware datetime: the civil day number of
the local wall-clock time. -/
def Instant.dateOf (i : Instant) : ℤ := ⌊(i.utc + i.off) / 86400⌋

/-- Python's `datetime.time()` on an aware datetime: seconds since local
midnight. -/
def Instant.timeOf (i : Instant) : ℚ :=
  i.utc + i.off - 86400 * ⌊(i.utc + i.off) / 86400⌋

/-- An event dict of the source: either all-day `{summary, date, desc}`
(the `all_day` key absent or True) or timed
`{summary, date_start, date_end, all_day: False, desc}`. -/
inductive Event where
  | allDay (summary : String) (date : ℤ) (desc : String)
  | timed (summary : String) (date_start date_end : Instant) (desc : String)
deriving DecidableEq

/-- Embeds the sort key `_key` of `events_for_year` (astronomy.py lines
1012-1015): `(date, 00:00)` for all-day events, `(start date, start time)`
for timed ones. -/
def sortKey : Event → ℤ × ℚ
  | .allDay _ d _ => (d, 0)
  | .timed _ ds _ _ => (ds.dateOf, ds.timeOf)

/-- Python's lexicographic tuple comparison on sort keys. -/
def keyLe (a b : Event) : Bool :=
  decide ((sortKey a).1 < (sortKey b).1 ∨
    ((sortKey a).1 = (sortKey b).1 ∧ (sortKey a).2 ≤ (sortKey b).2))

/-- Embeds the identity key of `_dedup` (astronomy.py line 1022):
`(summary, date or date_start.date())`. -/
def idKey : Event → String × ℤ
  | .allDay s d _ => (s, d)
  | .timed s ds _ _ => (s, ds.dateOf)

/-- Embeds the loop of `_dedup` (astronomy.py lines 1019-1025), with the
`seen` set carried explicitly. -/
def dedupAux : List (String × ℤ) → List Event → List Event
  | _, [] => []
  | seen, e :: es =>
    if idKey e ∈ seen then dedupAux seen es
    else e :: dedupAux (idKey e :: seen) es

/-- Embeds `_dedup` (astronomy.py lines 1019-1025). -/
def _dedup (events : List Event) : List Event := dedupAux [] events

/-- Embeds the candidate collection `ev` of `events_for_year` (astronomy.py
lines 1001-1010). The per-category producers are parameters because in the
source they query the external ephemeris and rise-set providers. -/
def candidate_events (ekadashi : String → List Event)
    (sankashti amavasya_purnima : List Event)
    (festivals : Option String → List Event) (rahukaal : List Event)
    (tradition : String)
    (include_sankashti include_amavasya_purnima include_rahukaal
      include_festivals : Bool)
    (festivals_which : Option String) : List Event :=
  ekadashi tradition
    ++ (if include_sankashti then sankashti else [])
    ++ (if include_amavasya_purnima then amavasya_purnima else [])
    ++ (if include_festivals then festivals festivals_which else [])
    ++ (if include_rahukaal then rahukaal else [])

/-- Embeds `events_for_year` (astronomy.py lines 992-1017): collect
candidates, sort by `_key`, deduplicate. -/
def events_for_year (ekadashi : String → List Event)
    (sankashti amavasya_purnima : List Event)
    (festivals : Option String → List Event) (rahukaal : List Event)
    (tradition : String)
    (include_sankashti include_amavasya_purnima include_rahukaal
      include_festivals : Bool)
    (festivals_which : Option String) : List Event :=
  _dedup (List.mergeSort
    (candidate_events ekadashi sankashti amavasya_purnima festivals rahukaal
      tradition include_sankashti include_amavasya_purnima include_rahukaal
      include_festivals festivals_which) keyLe)

theorem keyLe_trans (a b c : Event) :
    keyLe a b = true → keyLe b c = true → keyLe a c = true := by
  simp only [keyLe, decide_eq_true_eq]
  rintro (h | ⟨h1, h2⟩) (h' | ⟨h1', h2'⟩)
  · exact Or.inl (h.trans h')
  · exact Or.inl (h1' ▸ h)
  · exact Or.inl (h1 ▸ h')
  · exact Or.inr ⟨h1.trans h1', h2.trans h2'⟩

theorem keyLe_total (a b : Event) : (keyLe a b || keyLe b a) = true := by
  simp only [keyLe, Bool.or_eq_true, decide_eq_true_eq]
  rcases lt_trichotomy (sortKey a).1 (sortKey b).1 with h | h | h
  · exact Or.inl (Or.inl h)
  · rcases le_total (sortKey a).2 (sortKey b).2 with h2 | h2
    · exact Or.inl (Or.inr ⟨h, h2⟩)
    · exact Or.inr (Or.inr ⟨h.symm, h2⟩)
  · exact Or.inr (Or.inl h)

theorem dedupAux_sublist (seen : List (String × ℤ)) (l : List Event) :
    List.Sublist (dedupAux seen l) l := by
  induction l generalizing seen with
  | nil => simp [dedupAux]
  | cons e es ih =>
    unfold dedupAux
    by_cases h : idKey e ∈ seen
    · rw [if_pos h]
      exact (ih seen).trans (List.sublist_cons_self e es)
    · rw [if_neg h]
      exact (ih _).cons₂ e

theorem mem_dedupAux_not_seen {seen : List (String × ℤ)} {l : List Event}
    {e : Event} : e ∈ dedupAux seen l → idKey e ∉ seen := by
  induction l generalizing seen with
  | nil => simp [dedupAux]
  | cons x xs ih =>
    unfold dedupAux
    by_cases h : idKey x ∈ seen
    · rw [if_pos h]; exact ih
    · rw [if_neg h]
      intro hm
      rcases List.mem_cons.mp hm with rfl | hm'
      · exact h
      · have h2 := ih hm'
        intro hc
        exact h2 (List.mem_cons_of_mem _ hc)

theorem dedupAux_pairwise (seen : List (String × ℤ)) (l : List Event) :
    (dedupAux seen l).Pairwise (fun a b => idKey a ≠ idKey b) := by
  induction l generalizing seen with
  | nil => simp [dedupAux]
  | cons x xs ih =>
    unfold dedupAux
    by_cases h : idKey x ∈ seen
    · rw [if_pos h]; exact ih seen
    · rw [if_neg h]
      refine List.Pairwise.cons ?_ (ih _)
      intro b hb hc
      exact (mem_dedupAux_not_seen hb) (by rw [← hc]; exact List.mem_cons_self _ _)

theorem dedupAux_find? {seen : List (String × ℤ)} {l : List Event} {e : Event}
    (he : e ∈ dedupAux seen l) :
    l.find? (fun x => decide (idKey x = idKey e)) = some e := by
  induction l generalizing seen with
  | nil => simp [dedupAux] at he
  | cons x xs ih =>
    unfold dedupAux at he
    by_cases h : idKey x ∈ seen
    · rw [if_pos h] at he
      have hne : idKey x ≠ idKey e := by
        intro hc
        exact (mem_dedupAux_not_seen he) (hc ▸ h)
      rw [List.find?_cons_of_neg _ (by simpa using hne)]
      exact ih he
    · rw [if_neg h] at he
      rcases List.mem_cons.mp he with rfl | he'
      · rw [List.find?_cons_of_pos _ (by simp)]
      · have hne : idKey x ≠ idKey e := by
          have h2 := mem_dedupAux_not_seen he'
          intro hc
          exact h2 (hc ▸ List.mem_cons_self _ _)
        rw [List.find?_cons_of_neg _ (by simpa using hne)]
        exact ih he'

theorem dedupAux_covers {l : List Event} {e : Event} (he : e ∈ l) :
    ∀ seen, idKey e ∈ seen ∨ ∃ e' ∈ dedupAux seen l, idKey e' = idKey e := by
  induction l with
  | nil => simp at he
  | cons x xs ih =>
    intro seen
    rcases List.mem_cons.mp he with rfl | he'
    · by_cases h : idKey e ∈ seen
      · exact Or.inl h
      · right
        refine ⟨e, ?_, rfl⟩
        unfold dedupAux
        rw [if_neg h]
        exact List.mem_cons_self _ _
    · by_cases h : idKey x ∈ seen
      · unfold dedupAux
        rw [if_pos h]
        exact ih he' seen
      · unfold dedupAux
        rw [if_neg h]
        rcases ih he' (idKey x :: seen) with hin | ⟨e', he'', hk⟩
        · rcases List.mem_cons.mp hin with hkx | hseen
          · exact Or.inr ⟨x, List.mem_cons_self _ _, hkx.symm⟩
          · exact Or.inl hseen
        · exact Or.inr ⟨e', List.mem_cons_of_mem _ he'', hk⟩

/-- C1: for every input, `events_for_year` returns a list that is ordered by
(intrinsic date, time-of-day) with all-day events pinned to 00:00, contains
no two events sharing the identity key (summary, intrinsic date), and every
kept event is the first occurrence of its identity key in the sorted
candidate order; moreover every candidate identity key is represented. -/
theorem events_for_year_spec (ekadashi : String → List Event)
    (sankashti amavasya_purnima : List Event)
    (festivals : Option String → List Event) (rahukaal : List Event)
    (tradition : String)
    (include_sankashti include_amavasya_purnima include_rahukaal
      include_festivals : Bool)
    (festivals_which : Option String) :
    (events_for_year ekadashi sankashti amavasya_purnima festivals rahukaal
        tradition include_sankashti include_amavasya_purnima include_rahukaal
        include_festivals festivals_which).Pairwise
        (fun a b => keyLe a b = true) ∧
      (events_for_year ekadashi sankashti amavasya_purnima festivals rahukaal
        tradition include_sankashti include_amavasya_purnima include_rahukaal
        include_festivals festivals_which).Pairwise
        (fun a b => idKey a ≠ idKey b) ∧
      (∀ e ∈ events_for_year ekadashi sankashti amavasya_purnima festivals
          rahukaal tradition include_sankashti include_amavasya_purnima
          include_rahukaal include_festivals festivals_which,
        (List.mergeSort (candidate_events ekadashi sankashti amavasya_purnima
            festivals rahukaal tradition include_sankashti
            include_amavasya_purnima include_rahukaal include_festivals
            festivals_which) keyLe).find?
            (fun x => decide (idKey x = idKey e)) = some e) ∧
      (∀ e ∈ candidate_events ekadashi sankashti amavasya_purnima festivals
          rahukaal tradition include_sankashti include_amavasya_purnima
          include_rahukaal include_festivals festivals_which,
        ∃ e' ∈ events_for_year ekadashi sankashti amavasya_purnima festivals
            rahukaal tradition include_sankashti include_amavasya_purnima
            include_rahukaal include_festivals festivals_which,
          idKey e' = idKey e) := by
  have hout : events_for_year ekadashi sankashti amavasya_purnima festivals
      rahukaal tradition include_sankashti include_amavasya_purnima
      include_rahukaal include_festivals festivals_which
      = dedupAux [] (List.mergeSort (candidate_events ekadashi sankashti
          amavasya_purnima festivals rahukaal tradition include_sankashti
          include_amavasya_purnima include_rahukaal include_festivals
          festivals_which) keyLe) := rfl
  have hs : (List.mergeSort (candidate_events ekadashi sankashti
      amavasya_purnima festivals rahukaal tradition include_sankashti
      include_amavasya_purnima include_rahukaal include_festivals
      festivals_which) keyLe).Pairwise (fun a b => keyLe a b = true) := by
    have h := @List.sorted_mergeSort Event keyLe
      (fun a b c => keyLe_trans a b c) (fun a b => keyLe_total a b)
      (candidate_events ekadashi sankashti amavasya_purnima festivals rahukaal
        tradition include_sankashti include_amavasya_purnima include_rahukaal
        include_festivals festivals_which)
    simpa using h
  refine ⟨?_, ?_, ?_, ?_⟩
  · rw [hout]
    exact hs.sublist (dedupAux_sublist _ _)
  · rw [hout]
    exact dedupAux_pairwise _ _
  · intro e he
    rw [hout] at he
    exact dedupAux_find? he
  · intro e he
    have hm : e ∈ List.mergeSort (candidate_events ekadashi sankashti
        amavasya_purnima festivals rahukaal tradition include_sankashti
        include_amavasya_purnima include_rahukaal include_festivals
        festivals_which) keyLe := List.mem_mergeSort.mpr he
    rw [hout]
    rcases dedupAux_covers hm [] with h | h
    · simp at h
    · exact h

/-- Concrete all-day event used by witnesses. -/
def ev_eka : Event := .allDay "Ekadashi — Shukla" 20000 "d"

/-- Witness for C1: with the Ekadashi producer returning `[ev_eka]` and all
other categories empty, the kept event is the first occurrence of its key in
the sorted candidate order. -/
theorem events_for_year_spec_witness :
    (List.mergeSort (candidate_events (fun _ => [ev_eka]) [] [] (fun _ => [])
        [] "smartha" true true true true (some "all")) keyLe).find?
        (fun x => decide (idKey x = idKey ev_eka)) = some ev_eka :=
  (events_for_year_spec (fun _ => [ev_eka]) [] [] (fun _ => []) [] "smartha"
    true true true true (some "all")).2.2.1 ev_eka
    (by simp [events_for_year, candidate_events, _dedup, dedupAux,
      List.mergeSort])

/-- C10: for every input to `events_for_year` — in particular for every
value of the four `include_*` flags, the tradition and the festival
selection — every event produced by the Ekadashi category has its identity
key represented in the output: no parameter can exclude Ekadashi events. -/
theorem events_for_year_includes_ekadashi (ekadashi : String → List Event)
    (sankashti amavasya_purnima : List Event)
    (festivals : Option String → List Event) (rahukaal : List Event)
    (tradition : String)
    (include_sankashti include_amavasya_purnima include_rahukaal
      include_festivals : Bool)
    (festivals_which : Option String) :
    ∀ e ∈ ekadashi tradition,
      ∃ e' ∈ events_for_year ekadashi sankashti amavasya_purnima festivals
          rahukaal tradition include_sankashti include_amavasya_purnima
          include_rahukaal include_festivals festivals_which,
        idKey e' = idKey e := by
  intro e he
  have hc : e ∈ candidate_events ekadashi sankashti amavasya_purnima festivals
      rahukaal tradition include_sankashti include_amavasya_purnima
      include_rahukaal include_festivals festivals_which :=
    List.mem_append_left _ (List.mem_append_left _ (List.mem_append_left _
      (List.mem_append_left _ he)))
  have hm : e ∈ List.mergeSort (candidate_events ekadashi sankashti
      amavasya_purnima festivals rahukaal tradition include_sankashti
      include_amavasya_purnima include_rahukaal include_festivals
      festivals_which) keyLe := List.mem_mergeSort.mpr hc
  have hout : events_for_year ekadashi sankashti amavasya_purnima festivals
      rahukaal tradition include_sankashti include_amavasya_purnima
      include_rahukaal include_festivals festivals_which
      = dedupAux [] (List.mergeSort (candidate_events ekadashi sankashti
          amavasya_purnima festivals rahukaal tradition include_sankashti
          include_amavasya_purnima include_rahukaal include_festivals
          festivals_which) keyLe) := rfl
  rw [hout]
  rcases dedupAux_covers hm [] with h | h
  · simp at h
  · exact h

/-- Witness for C10: with every inclusion flag off, the Ekadashi event is
still represented in the output. -/
theorem events_for_year_includes_ekadashi_witness :
    ∃ e' ∈ events_for_year (fun _ => [ev_eka]) [] [] (fun _ => []) [] "x"
        false false false false none,
      idKey e' = idKey ev_eka :=
  events_for_year_includes_ekadashi (fun _ => [ev_eka]) [] [] (fun _ => []) []
    "x" false false false false none ev_eka (List.mem_cons_self _ _)

/-- Embeds `wrap180` of `_find_amavasya_utc` (astronomy.py line 115). -/
def wrap180 (x : ℚ) : ℚ := pymod (x + 180) 360 - 180

/-- Embeds the bracket-expansion loop of `_find_amavasya_utc` (astronomy.py
lines 120-128): while the endpoint values have the same sign and fewer than
`fuel` expansions happened, widen symmetrically by 24 hours. `f` is the
wrapped Moon-Sun elongation, obtained in the source from the ephemeris. -/
def expandBracket (f : ℚ → ℚ) : ℕ → ℚ → ℚ → ℚ × ℚ
  | 0, l, r => (l, r)
  | n + 1, l, r =>
    if f l * f r > 0 then expandBracket f n (l - 86400) (r + 86400) else (l, r)

/-- Embeds the bisection loop of `_find_amavasya_utc` (astronomy.py lines
132-141), carrying `left`, `right` and `fl` exactly as the source does; when
the fuel runs out the midpoint is returned. -/
def bisect (f : ℚ → ℚ) : ℕ → ℚ → ℚ → ℚ → ℚ
  | 0, l, r, _ => l + (r - l) / 2
  | n + 1, l, r, fl =>
    if |f (l + (r - l) / 2)| < 1/10000 then l + (r - l) / 2
    else if fl * f (l + (r - l) / 2) ≤ 0 then bisect f n l (l + (r - l) / 2) fl
    else bisect f n (l + (r - l) / 2) r (f (l + (r - l) / 2))

/-- Embeds `_find_amavasya_utc` (astronomy.py lines 114-141): bracket the
guess with a ±36-hour window, expand at most 6 times, return none when still
unbracketed, otherwise bisect at most 50 times. -/
def _find_amavasya_utc (f : ℚ → ℚ) (dt_guess_utc : ℚ) : Option ℚ :=
  let p := expandBracket f 6 (dt_guess_utc - 129600) (dt_guess_utc + 129600)
  if f p.1 * f p.2 > 0 then none
  else some (bisect f 50 p.1 p.2 (f p.1))

/-- Embeds `daysFromCivil`-style day numbering used to ground the source's
civil datetimes (`datetime(year-1, 12, 10)` etc.) as instants; standard
Gregorian day-number formula. -/
def daysFromCivil (y m d : ℤ) : ℤ :=
  let y' := if m ≤ 2 then y - 1 else y
  let era := (if 0 ≤ y' then y' else y' - 399) / 400
  let yoe := y' - era * 400
  let doy := (153 * (m + (if 2 < m then -3 else 9)) + 2) / 5 + d - 1
  let doe := yoe * 365 + yoe / 4 - yoe / 100 + doy
  era * 146097 + doe - 719468

/-- Embeds the guess-generation loop of `lunations_covering_year`
(astronomy.py lines 144-150): instants from December 10 of the prior year to
January 20 of the following year, spaced 29 days 13 hours (2552400 s); the
while loop `cur ≤ end` yields exactly `⌊(end - start)/step⌋ + 1` guesses. -/
def guessesFor (year : ℤ) : List ℚ :=
  (List.range (⌊((86400 * (daysFromCivil (year + 1) 1 20 : ℚ))
      - (86400 * (daysFromCivil (year - 1) 12 10 : ℚ))) / 2552400⌋ + 1).toNat).map
    (fun i => 86400 * (daysFromCivil (year - 1) 12 10 : ℚ) + 2552400 * (i : ℚ))

/-- Embeds the solving-and-merging loop of `lunations_covering_year`
(astronomy.py lines 151-158): a guess whose root is not bracketed is
skipped; a root within 18 hours (64800 s) of an already found one is
skipped; otherwise it is appended. -/
def collectFound (f : ℚ → ℚ) : List ℚ → List ℚ → List ℚ
  | found, [] => found
  | found, g :: gs =>
    match _find_amavasya_utc f g with
    | none => collectFound f found gs
    | some av =>
      if found.any (fun x => decide (|av - x| < 64800)) = true
        then collectFound f found gs
        else collectFound f (found ++ [av]) gs

/-- Embeds `lunations_covering_year` (astronomy.py lines 143-160): solve all
guesses, merge near-duplicates, sort ascending. -/
def lunations_covering_year (f : ℚ → ℚ) (year : ℤ) : List ℚ :=
  List.mergeSort (collectFound f [] (guessesFor year)) (fun a b => decide (a ≤ b))

/-- Embeds `amanta_lunation_intervals` (astronomy.py lines 166-169):
consecutive pairs of the year's lunation instants. -/
def amanta_lunation_intervals (f : ℚ → ℚ) (year : ℤ) : List (ℚ × ℚ) :=
  (lunations_covering_year f year).zip (lunations_covering_year f year).tail

theorem collectFound_cons (f : ℚ → ℚ) (found gs : List ℚ) (g : ℚ) :
    collectFound f found (g :: gs)
      = match _find_amavasya_utc f g with
        | none => collectFound f found gs
        | some av =>
          if (found.any fun x => decide (|av - x| < 64800)) = true
            then collectFound f found gs
            else collectFound f (found ++ [av]) gs := rfl

theorem collectFound_none {f : ℚ → ℚ} {g : ℚ} (found gs : List ℚ)
    (h : _find_amavasya_utc f g = none) :
    collectFound f found (g :: gs) = collectFound f found gs := by
  rw [collectFound_cons, h]

theorem collectFound_some_dup {f : ℚ → ℚ} {g av : ℚ} (found gs : List ℚ)
    (h : _find_amavasya_utc f g = some av)
    (ha : found.any (fun x => decide (|av - x| < 64800)) = true) :
    collectFound f found (g :: gs) = collectFound f found gs := by
  rw [collectFound_cons, h]
  show (if (found.any fun x => decide (|av - x| < 64800)) = true
    then collectFound f found gs
    else collectFound f (found ++ [av]) gs) = collectFound f found gs
  rw [if_pos ha]

theorem collectFound_some_new {f : ℚ → ℚ} {g av : ℚ} (found gs : List ℚ)
    (h : _find_amavasya_utc f g = some av)
    (ha : found.any (fun x => decide (|av - x| < 64800)) = false) :
    collectFound f found (g :: gs) = collectFound f (found ++ [av]) gs := by
  rw [collectFound_cons, h]
  show (if (found.any fun x => decide (|av - x| < 64800)) = true
    then collectFound f found gs
    else collectFound f (found ++ [av]) gs) = collectFound f (found ++ [av]) gs
  rw [if_neg (by simp [ha])]

/-- C4: `_find_amavasya_utc` returns none exactly when, after the ±36-hour
bracket and at most 6 symmetric 24-hour expansions, the endpoint values
still have the same (strict) sign; whenever bracketed it returns the
bisection result (at most 50 steps); and the guess-enumeration loop skips a
none result and continues. -/
theorem find_amavasya_spec (f : ℚ → ℚ) (g : ℚ) (found gs : List ℚ) :
    (_find_amavasya_utc f g = none ↔
      f (expandBracket f 6 (g - 129600) (g + 129600)).1 *
        f (expandBracket f 6 (g - 129600) (g + 129600)).2 > 0) ∧
      (_find_amavasya_utc f g ≠ none →
        _find_amavasya_utc f g = some (bisect f 50
          (expandBracket f 6 (g - 129600) (g + 129600)).1
          (expandBracket f 6 (g - 129600) (g + 129600)).2
          (f (expandBracket f 6 (g - 129600) (g + 129600)).1))) ∧
      (_find_amavasya_utc f g = none →
        collectFound f found (g :: gs) = collectFound f found gs) := by
  have hfind : _find_amavasya_utc f g
      = if f (expandBracket f 6 (g - 129600) (g + 129600)).1 *
            f (expandBracket f 6 (g - 129600) (g + 129600)).2 > 0
        then none
        else some (bisect f 50
          (expandBracket f 6 (g - 129600) (g + 129600)).1
          (expandBracket f 6 (g - 129600) (g + 129600)).2
          (f (expandBracket f 6 (g - 129600) (g + 129600)).1)) := rfl
  refine ⟨?_, ?_, ?_⟩
  · rw [hfind]
    by_cases h : f (expandBracket f 6 (g - 129600) (g + 129600)).1 *
        f (expandBracket f 6 (g - 129600) (g + 129600)).2 > 0
    · simp [if_pos h, h]
    · simp [if_neg h, h]
  · intro hne
    rw [hfind] at hne ⊢
    by_cases h : f (expandBracket f 6 (g - 129600) (g + 129600)).1 *
        f (expandBracket f 6 (g - 129600) (g + 129600)).2 > 0
    · exact absurd (if_pos h) hne
    · rw [if_neg h]
  · intro hn
    exact collectFound_none found gs hn

/-- Witness for C4: for the constant elongation function 1 the bracket never
forms and the guess is skipped; for the identity function the initial
bracket around 0 succeeds and bisection returns the root 0. -/
theorem find_amavasya_spec_witness :
    _find_amavasya_utc (fun _ => (1 : ℚ)) 0 = none ∧
      collectFound (fun _ => (1 : ℚ)) [] [0] = [] ∧
      _find_amavasya_utc (fun t => t) 0 = some 0 := by
  have h1 : _find_amavasya_utc (fun _ => (1 : ℚ)) 0 = none :=
    (find_amavasya_spec (fun _ => (1 : ℚ)) 0 [] []).1.mpr (by norm_num)
  exact ⟨h1, ((find_amavasya_spec (fun _ => (1 : ℚ)) 0 [] []).2.2 h1).trans rfl,
    ((find_amavasya_spec (fun t => t) 0 [] []).2.1
      (by intro hc
          have := (find_amavasya_spec (fun t => t) 0 [] []).1.mp hc
          rw [show expandBracket (fun t : ℚ => t) 6 (0 - 129600) (0 + 129600)
              = (0 - 129600, 0 + 129600) from by with_unfolding_all rfl] at this
          norm_num at this)).trans
      (by with_unfolding_all rfl)⟩

theorem collectFound_sep (f : ℚ → ℚ) (gs : List ℚ) :
    ∀ found : List ℚ, found.Pairwise (fun a b => 64800 ≤ |a - b|) →
      (collectFound f found gs).Pairwise (fun a b => 64800 ≤ |a - b|) := by
  induction gs with
  | nil =>
    intro found h
    exact h
  | cons g gs ih =>
    intro found h
    cases hf : _find_amavasya_utc f g with
    | none =>
      rw [collectFound_none found gs hf]
      exact ih found h
    | some av =>
      cases ha : found.any (fun x => decide (|av - x| < 64800)) with
      | true =>
        rw [collectFound_some_dup found gs hf ha]
        exact ih found h
      | false =>
        rw [collectFound_some_new found gs hf ha]
        apply ih
        rw [List.pairwise_append]
        refine ⟨h, List.pairwise_singleton _ _, ?_⟩
        intro x hx y hy
        have hyav : y = av := List.mem_singleton.mp hy
        rw [hyav]
        have hno : ¬ (|av - x| < 64800) := by
          intro hc
          have : found.any (fun x => decide (|av - x| < 64800)) = true :=
            List.any_eq_true.mpr ⟨x, hx, by simpa using hc⟩
          rw [ha] at this
          exact Bool.false_ne_true this
        have h2 : (64800 : ℚ) ≤ |av - x| := not_lt.mp hno
        rwa [abs_sub_comm] at h2

theorem lunations_sorted_sep (f : ℚ → ℚ) (year : ℤ) :
    (lunations_covering_year f year).Pairwise (fun a b => a < b ∧ 64800 ≤ b - a) := by
  have hsep : (collectFound f [] (guessesFor year)).Pairwise
      (fun a b => 64800 ≤ |a - b|) :=
    collectFound_sep f (guessesFor year) [] List.Pairwise.nil
  have hperm : List.Perm (lunations_covering_year f year)
      (collectFound f [] (guessesFor year)) :=
    List.mergeSort_perm _ _
  have hsep' : (lunations_covering_year f year).Pairwise
      (fun a b => 64800 ≤ |a - b|) :=
    (hperm.pairwise_iff (fun h => by rwa [abs_sub_comm] at h)).mpr hsep
  have hsort : (lunations_covering_year f year).Pairwise
      (fun a b : ℚ => decide (a ≤ b) = true) := by
    have h := @List.sorted_mergeSort ℚ (fun a b : ℚ => decide (a ≤ b))
      (fun a b c hab hbc => by
        simp only [decide_eq_true_eq] at *
        exact le_trans hab hbc)
      (fun a b => by
        simp only [Bool.or_eq_true, decide_eq_true_eq]
        exact le_total a b)
      (collectFound f [] (guessesFor year))
    exact h
  exact hsort.imp₂ (fun a b hab hsep => by
    have hle : a ≤ b := of_decide_eq_true hab
    have : |a - b| = b - a := by
      rw [abs_sub_comm]
      exact abs_of_nonneg (sub_nonneg.mpr hle)
    rw [this] at hsep
    exact ⟨by linarith, hsep⟩) hsep'

theorem pairwise_zip_tail {α : Type} {R : α → α → Prop} :
    ∀ {l : List α}, l.Pairwise R → ∀ p ∈ l.zip l.tail, R p.1 p.2 := by
  intro l
  induction l with
  | nil =>
    intro _ p hp
    simp at hp
  | cons a t ih =>
    intro h p hp
    cases t with
    | nil => simp at hp
    | cons b t' =>
      simp only [List.tail_cons, List.zip_cons_cons] at hp
      rcases List.mem_cons.mp hp with rfl | hp'
      · exact (List.pairwise_cons.mp h).1 b (List.mem_cons_self _ _)
      · have h2 := (List.pairwise_cons.mp h).2
        have h3 := ih h2 p
        simp only [List.tail_cons] at h3
        exact h3 hp'

theorem zip_tail_adjacent {α : Type} :
    ∀ (l : List α), ∀ p ∈ (l.zip l.tail).zip (l.zip l.tail).tail,
      p.1.2 = p.2.1 := by
  intro l
  induction l with
  | nil =>
    intro p hp
    simp at hp
  | cons a t ih =>
    cases t with
    | nil =>
      intro p hp
      simp at hp
    | cons b t' =>
      cases t' with
      | nil =>
        intro p hp
        simp at hp
      | cons c t'' =>
        intro p hp
        simp only [List.tail_cons, List.zip_cons_cons] at hp
        rcases List.mem_cons.mp hp with rfl | hp'
        · rfl
        · have h3 := ih p
          simp only [List.tail_cons, List.zip_cons_cons] at h3
          exact h3 hp'

theorem pairwise_intervals {l : List ℚ} (h : l.Pairwise (fun a b => a < b)) :
    (l.zip l.tail).Pairwise (fun p q => p.1 < q.1 ∧ p.2 ≤ q.1) := by
  induction l with
  | nil => simp
  | cons a t ih =>
    cases t with
    | nil => simp
    | cons b t' =>
      simp only [List.tail_cons, List.zip_cons_cons]
      have h' := List.pairwise_cons.mp h
      have hbt : (b :: t').Pairwise (fun a b : ℚ => a < b) := h'.2
      have hrest := ih hbt
      simp only [List.tail_cons] at hrest
      refine List.Pairwise.cons ?_ hrest
      rintro ⟨q1, q2⟩ hq
      have hq1 : q1 ∈ b :: t' := (List.of_mem_zip hq).1
      have hab : a < b := h'.1 b (List.mem_cons_self _ _)
      rcases List.mem_cons.mp hq1 with rfl | hq1'
      · exact ⟨hab, le_refl _⟩
      · have hbq : b < q1 := (List.pairwise_cons.mp hbt).1 q1 hq1'
        exact ⟨lt_trans hab hbq, le_of_lt hbq⟩

/-- C5: the lunation list is strictly ascending with no two instants within
18 hours (64800 s) of each other; the intervals built from consecutive pairs
are ordered by start and non-overlapping, contiguous (each interval's end is
the next interval's start), and each has positive extent. -/
theorem lunations_covering_year_spec (f : ℚ → ℚ) (year : ℤ) :
    (lunations_covering_year f year).Pairwise
        (fun a b => a < b ∧ 64800 ≤ b - a) ∧
      (amanta_lunation_intervals f year).Pairwise
        (fun p q => p.1 < q.1 ∧ p.2 ≤ q.1) ∧
      (∀ p ∈ (amanta_lunation_intervals f year).zip
          (amanta_lunation_intervals f year).tail, p.1.2 = p.2.1) ∧
      (∀ iv ∈ amanta_lunation_intervals f year, iv.1 < iv.2) := by
  have hL := lunations_sorted_sep f year
  have hlt : (lunations_covering_year f year).Pairwise (fun a b => a < b) :=
    hL.imp (fun h => h.1)
  refine ⟨hL, ?_, ?_, ?_⟩
  · exact pairwise_intervals hlt
  · intro p hp
    exact zip_tail_adjacent (lunations_covering_year f year) p hp
  · intro iv hiv
    exact pairwise_zip_tail hlt iv hiv

/-- Concrete guess instants for year 2025, matching `guessesFor 2025`. -/
def g2025 (i : ℕ) : ℚ :=
  86400 * (daysFromCivil 2024 12 10 : ℚ) + 2552400 * (i : ℚ)

/-- Concrete sawtooth elongation function whose zeros are exactly the 2025
guess instants, used to exercise the lunation pipeline. -/
def fEx (t : ℚ) : ℚ :=
  pymod (t - (86400 * (daysFromCivil 2024 12 10 : ℚ) - 1276200)) 2552400 - 1276200

theorem amanta_intervals_fEx :
    amanta_lunation_intervals fEx 2025 =
      [(g2025 0, g2025 1), (g2025 1, g2025 2), (g2025 2, g2025 3),
       (g2025 3, g2025 4), (g2025 4, g2025 5), (g2025 5, g2025 6),
       (g2025 6, g2025 7), (g2025 7, g2025 8), (g2025 8, g2025 9),
       (g2025 9, g2025 10), (g2025 10, g2025 11), (g2025 11, g2025 12),
       (g2025 12, g2025 13)] := by
  with_unfolding_all rfl

/-- Witness for C5 at the sawtooth elongation function and year 2025: the
first interval has positive extent and the first two intervals are
contiguous. -/
theorem lunations_covering_year_spec_witness :
    ((g2025 0, g2025 1) : ℚ × ℚ).1 < ((g2025 0, g2025 1) : ℚ × ℚ).2 ∧
      (((g2025 0, g2025 1), (g2025 1, g2025 2)) : (ℚ × ℚ) × (ℚ × ℚ)).1.2
        = (((g2025 0, g2025 1), (g2025 1, g2025 2)) : (ℚ × ℚ) × (ℚ × ℚ)).2.1 := by
  have hiv := amanta_intervals_fEx
  constructor
  · refine (lunations_covering_year_spec fEx 2025).2.2.2 (g2025 0, g2025 1) ?_
    rw [hiv]
    exact List.mem_cons_self _ _
  · refine (lunations_covering_year_spec fEx 2025).2.2.1
      ((g2025 0, g2025 1), (g2025 1, g2025 2)) ?_
    rw [hiv]
    simp only [List.tail_cons, List.zip_cons_cons, List.mem_cons]
    exact Or.inl trivial

/-- Python's `not e.get("all_day", True) and e.get("summary") == "Rahu Kaal"`
(cli.py line 16, app.py line 76). -/
def isTimedRK : Event → Bool
  | .timed s _ _ _ => s == "Rahu Kaal"
  | .allDay _ _ _ => false

/-- The UTC instant of a timed event's `date_start` (all-day events never
reach the places where this is used). -/
def startUtc : Event → ℚ
  | .timed _ ds _ _ => ds.utc
  | .allDay _ _ _ => 0

/-- Python's `e["date_start"].astimezone(vt).date()` (cli.py lines 19-20,
app.py lines 80-81): the viewer timezone is a function giving the zone's
offset (seconds) at a UTC instant. -/
def viewer_local_date (vt : ℚ → ℚ) (e : Event) : ℤ :=
  ⌊(startUtc e + vt (startUtc e)) / 86400⌋

/-- Python's `per.setdefault(key, []).append(e)` over an insertion-ordered
dict, modelled on an association list (cli.py lines 17-21, app.py lines
78-82). -/
def addToGroups (k : ℤ) (e : Event) :
    List (ℤ × List Event) → List (ℤ × List Event)
  | [] => [(k, [e])]
  | (k', g) :: rest =>
    if k' = k then (k', g ++ [e]) :: rest
    else (k', g) :: addToGroups k e rest

/-- Comparison of aware datetimes after `astimezone(vt)` — `astimezone`
preserves the instant, so this is comparison of the UTC instants (cli.py
line 24, app.py line 86). -/
def startLe (a b : Event) : Bool := decide (startUtc a ≤ startUtc b)

/-- Python's `lst[-1]` on a nonempty list, by structural recursion. -/
def pickLast : Event → List Event → Event
  | a, [] => a
  | _, b :: t => pickLast b t

/-- Python's `lst.sort(key=...astimezone(vt)); lst[-1]` (cli.py lines 24-25,
app.py lines 86-87): the group member with the latest start instant. -/
def latest_start (lst : List Event) : Event :=
  match List.mergeSort lst startLe with
  | [] => .allDay "" 0 ""
  | a :: t => pickLast a t

/-- Embeds `coalesce_rahukaal_for_viewer` (cli.py lines 14-28, app.py lines
70-92): group the timed Rahu Kaal events by viewer-local start date, keep
per group only the latest-starting one, keep every other event. -/
def coalesce_rahukaal_for_viewer (vt : ℚ → ℚ) (events : List Event) :
    List Event :=
  (events.filter fun e => ! isTimedRK e) ++
    (((events.filter isTimedRK).foldl
        (fun acc e => addToGroups (viewer_local_date vt e) e acc) []).map
      fun p => latest_start p.2)

theorem startLe_trans (a b c : Event) :
    startLe a b = true → startLe b c = true → startLe a c = true := by
  simp only [startLe, decide_eq_true_eq]
  exact le_trans

theorem startLe_total (a b : Event) : (startLe a b || startLe b a) = true := by
  simp only [startLe, Bool.or_eq_true, decide_eq_true_eq]
  exact le_total _ _

theorem pickLast_mem : ∀ (t : List Event) (a : Event), pickLast a t ∈ a :: t := by
  intro t
  induction t with
  | nil =>
    intro a
    exact List.mem_singleton.mpr rfl
  | cons b t' ih =>
    intro a
    exact List.mem_cons_of_mem _ (ih b)

theorem pickLast_le : ∀ (t : List Event) (a : Event),
    (a :: t).Pairwise (fun x y => startLe x y = true) →
    ∀ x ∈ a :: t, startUtc x ≤ startUtc (pickLast a t) := by
  intro t
  induction t with
  | nil =>
    intro a _ x hx
    have hxa : x = a := List.mem_singleton.mp hx
    rw [hxa]
    exact le_refl _
  | cons b t' ih =>
    intro a h x hx
    have h' := List.pairwise_cons.mp h
    rcases List.mem_cons.mp hx with rfl | hx'
    · have hm : pickLast b t' ∈ b :: t' := pickLast_mem t' b
      have h2 := h'.1 _ hm
      simp only [startLe, decide_eq_true_eq] at h2
      exact h2
    · exact ih b h'.2 x hx'

theorem mergeSort_startLe_sorted (lst : List Event) :
    (List.mergeSort lst startLe).Pairwise (fun x y => startLe x y = true) := by
  have h := @List.sorted_mergeSort Event startLe
    (fun a b c => startLe_trans a b c) (fun a b => startLe_total a b) lst
  exact h

theorem latest_start_mem {lst : List Event} (h : lst ≠ []) :
    latest_start lst ∈ lst := by
  unfold latest_start
  cases hms : List.mergeSort lst startLe with
  | nil =>
    exfalso
    have hp := List.mergeSort_perm lst startLe
    rw [hms] at hp
    exact h hp.symm.eq_nil
  | cons a t =>
    show pickLast a t ∈ lst
    have hm : pickLast a t ∈ a :: t := pickLast_mem t a
    rw [← hms] at hm
    exact List.mem_mergeSort.mp hm

theorem latest_start_le {lst : List Event} (x : Event) (hx : x ∈ lst) :
    startUtc x ≤ startUtc (latest_start lst) := by
  unfold latest_start
  cases hms : List.mergeSort lst startLe with
  | nil =>
    exfalso
    have hp := List.mergeSort_perm lst startLe
    rw [hms] at hp
    rw [hp.symm.eq_nil] at hx
    simp at hx
  | cons a t =>
    show startUtc x ≤ startUtc (pickLast a t)
    have hsorted : (a :: t).Pairwise (fun x y => startLe x y = true) := by
      have h2 := mergeSort_startLe_sorted lst
      rwa [hms] at h2
    have hxm : x ∈ a :: t := by
      rw [← hms]
      exact List.mem_mergeSort.mpr hx
    exact pickLast_le t a hsorted x hxm

theorem addToGroups_cons (k : ℤ) (e : Event) (k' : ℤ) (g : List Event)
    (rest : List (ℤ × List Event)) :
    addToGroups k e ((k', g) :: rest)
      = if k' = k then (k', g ++ [e]) :: rest
        else (k', g) :: addToGroups k e rest := rfl

theorem addToGroups_fst (k : ℤ) (e : Event) :
    ∀ acc : List (ℤ × List Event),
      (addToGroups k e acc).map Prod.fst
        = if k ∈ acc.map Prod.fst then acc.map Prod.fst
          else acc.map Prod.fst ++ [k] := by
  intro acc
  induction acc with
  | nil => simp [addToGroups]
  | cons p rest ih =>
    obtain ⟨k', g⟩ := p
    rw [addToGroups_cons]
    by_cases h : k' = k
    · subst h
      rw [if_pos rfl]
      simp
    · rw [if_neg h]
      simp only [List.map_cons, ih]
      by_cases h2 : k ∈ rest.map Prod.fst
      · rw [if_pos h2, if_pos (List.mem_cons_of_mem _ h2)]
      · rw [if_neg h2, if_neg (by
          simp only [List.mem_cons]
          rintro (hc | hc)
          · exact h hc.symm
          · exact h2 hc)]
        simp

theorem addToGroups_mem_ne (k : ℤ) (e : Event) (p : ℤ × List Event)
    (hne : p.1 ≠ k) :
    ∀ acc : List (ℤ × List Event), (p ∈ addToGroups k e acc ↔ p ∈ acc) := by
  intro acc
  induction acc with
  | nil =>
    constructor
    · intro hp
      have hpe : p = (k, [e]) := List.mem_singleton.mp hp
      exact absurd (by rw [hpe]) hne
    · intro hp
      simp at hp
  | cons q rest ih =>
    obtain ⟨k', g⟩ := q
    rw [addToGroups_cons]
    by_cases h : k' = k
    · subst h
      rw [if_pos rfl]
      simp only [List.mem_cons]
      constructor
      · rintro (hpe | hp)
        · exact absurd (by rw [hpe]) hne
        · exact Or.inr hp
      · rintro (hpe | hp)
        · exact absurd (by rw [hpe]) hne
        · exact Or.inr hp
    · rw [if_neg h]
      simp only [List.mem_cons, ih]

theorem addToGroups_lookup (k : ℤ) (e : Event) :
    ∀ acc : List (ℤ × List Event), (acc.map Prod.fst).Nodup →
      ∀ g : List Event,
        ((k, g) ∈ addToGroups k e acc ↔
          ((∃ g₀, (k, g₀) ∈ acc ∧ g = g₀ ++ [e]) ∨
            (k ∉ acc.map Prod.fst ∧ g = [e]))) := by
  intro acc
  induction acc with
  | nil =>
    intro _ g
    constructor
    · intro hp
      have hpe : ((k, g) : ℤ × List Event) = (k, [e]) := List.mem_singleton.mp hp
      exact Or.inr ⟨by simp, ((Prod.mk.injEq _ _ _ _).mp hpe).2⟩
    · rintro (⟨g₀, hg₀, _⟩ | ⟨_, rfl⟩)
      · simp at hg₀
      · exact List.mem_singleton.mpr rfl
  | cons q rest ih =>
    obtain ⟨k', g'⟩ := q
    intro hnd g
    simp only [List.map_cons] at hnd
    have hk'notin := (List.nodup_cons.mp hnd).1
    have hnd' := (List.nodup_cons.mp hnd).2
    rw [addToGroups_cons]
    by_cases h : k' = k
    · subst h
      rw [if_pos rfl]
      simp only [List.mem_cons]
      constructor
      · rintro (hpe | hp)
        · refine Or.inl ⟨g', Or.inl rfl, ?_⟩
          exact ((Prod.mk.injEq _ _ _ _).mp hpe).2
        · exact absurd (List.mem_map.mpr ⟨(k', g), hp, rfl⟩) hk'notin
      · rintro (⟨g₀, hg₀, hge⟩ | ⟨hnot, hge⟩)
        · rcases hg₀ with hpe | hp
          · refine Or.inl ?_
            rw [hge, ((Prod.mk.injEq _ _ _ _).mp hpe).2]
          · exact absurd (List.mem_map.mpr ⟨(k', g₀), hp, rfl⟩) hk'notin
        · exact absurd (by simp) hnot
    · rw [if_neg h]
      simp only [List.mem_cons]
      constructor
      · rintro (hpe | hp)
        · exact absurd (((Prod.mk.injEq _ _ _ _).mp hpe).1.symm) h
        · rcases (ih hnd' g).mp hp with ⟨g₀, hg₀, hge⟩ | ⟨hnot, hge⟩
          · exact Or.inl ⟨g₀, Or.inr hg₀, hge⟩
          · refine Or.inr ⟨?_, hge⟩
            simp only [List.map_cons, List.mem_cons]
            rintro (hc | hc)
            · exact h hc.symm
            · exact hnot hc
      · rintro (⟨g₀, hg₀, hge⟩ | ⟨hnot, hge⟩)
        · rcases hg₀ with hpe | hp
          · exact absurd (((Prod.mk.injEq _ _ _ _).mp hpe).1.symm) h
          · exact Or.inr ((ih hnd' g).mpr (Or.inl ⟨g₀, hp, hge⟩))
        · refine Or.inr ((ih hnd' g).mpr (Or.inr ⟨?_, hge⟩))
          intro hc
          exact hnot (by
            simp only [List.map_cons, List.mem_cons]
            exact Or.inr hc)

/-- Invariant of the grouping fold: after processing the events `pre`, the
association list `acc` has pairwise distinct keys, each entry holds exactly
the processed events with that key in order, and the keys are exactly the
keys occurring among the processed events. -/
def GroupsInv (κ : Event → ℤ) (pre : List Event)
    (acc : List (ℤ × List Event)) : Prop :=
  (acc.map Prod.fst).Nodup ∧
    (∀ p ∈ acc, p.2 = pre.filter (fun e => decide (κ e = p.1))) ∧
    (∀ e ∈ pre, κ e ∈ acc.map Prod.fst) ∧
    (∀ p ∈ acc, p.1 ∈ pre.map κ)

theorem groupsInv_step (κ : Event → ℤ) (pre : List Event)
    (acc : List (ℤ × List Event)) (e : Event) (h : GroupsInv κ pre acc) :
    GroupsInv κ (pre ++ [e]) (addToGroups (κ e) e acc) := by
  obtain ⟨hnd, hval, hcov, hkeys⟩ := h
  have hfst := addToGroups_fst (κ e) e acc
  refine ⟨?_, ?_, ?_, ?_⟩
  · rw [hfst]
    by_cases hm : κ e ∈ acc.map Prod.fst
    · rw [if_pos hm]; exact hnd
    · rw [if_neg hm]
      refine List.Nodup.append hnd (List.nodup_singleton _) ?_
      intro a ha hb
      have hae : a = κ e := List.mem_singleton.mp hb
      rw [hae] at ha
      exact hm ha
  · intro p hp
    by_cases hpk : p.1 = κ e
    · obtain ⟨pk, pg⟩ := p
      simp only at hpk
      subst hpk
      rcases (addToGroups_lookup _ e acc hnd pg).mp hp with
        ⟨g₀, hg₀, rfl⟩ | ⟨hnot, rfl⟩
      · have hv := hval _ hg₀
        simp only at hv
        rw [List.filter_append, ← hv]
        simp
      · rw [List.filter_append]
        have hpre : pre.filter (fun x => decide (κ x = κ e)) = [] := by
          rw [List.filter_eq_nil_iff]
          intro a ha
          simp only [decide_eq_true_eq]
          intro hc
          exact hnot (hc ▸ hcov a ha)
        rw [hpre]
        simp
    · have hp' : p ∈ acc := (addToGroups_mem_ne _ e p hpk acc).mp hp
      rw [List.filter_append, ← hval _ hp']
      have : [e].filter (fun x => decide (κ x = p.1)) = [] := by
        simp only [List.filter_eq_nil_iff, List.mem_singleton]
        rintro a rfl
        simp only [decide_eq_true_eq]
        intro hc
        exact hpk hc.symm
      rw [this]
      simp
  · intro x hx
    have hsup : ∀ y, y ∈ acc.map Prod.fst ∨ y = κ e →
        y ∈ (addToGroups (κ e) e acc).map Prod.fst := by
      intro y hy
      rw [hfst]
      by_cases hm : κ e ∈ acc.map Prod.fst
      · rw [if_pos hm]
        rcases hy with hy | rfl
        · exact hy
        · exact hm
      · rw [if_neg hm]
        rcases hy with hy | rfl
        · exact List.mem_append_left _ hy
        · exact List.mem_append_right _ (List.mem_singleton.mpr rfl)
    rcases List.mem_append.mp hx with hx' | hx'
    · exact hsup _ (Or.inl (hcov x hx'))
    · rw [List.mem_singleton.mp hx']
      exact hsup _ (Or.inr rfl)
  · intro p hp
    by_cases hpk : p.1 = κ e
    · rw [hpk, List.map_append]
      exact List.mem_append_right _ (by simp)
    · have hp' : p ∈ acc := (addToGroups_mem_ne _ e p hpk acc).mp hp
      rw [List.map_append]
      exact List.mem_append_left _ (hkeys _ hp')

theorem groupsInv_fold (κ : Event → ℤ) :
    ∀ (l pre : List Event) (acc : List (ℤ × List Event)),
      GroupsInv κ pre acc →
      GroupsInv κ (pre ++ l)
        (l.foldl (fun acc e => addToGroups (κ e) e acc) acc) := by
  intro l
  induction l with
  | nil =>
    intro pre acc h
    simpa using h
  | cons e l ih =>
    intro pre acc h
    have h2 := groupsInv_step κ pre acc e h
    have h3 := ih (pre ++ [e]) _ h2
    rw [List.append_assoc] at h3
    simpa using h3

theorem groupsInv_nil (κ : Event → ℤ) : GroupsInv κ [] [] := by
  refine ⟨by simp, by simp, by simp, by simp⟩

theorem countP_fst_nodup :
    ∀ (l : List (ℤ × List Event)), (l.map Prod.fst).Nodup → ∀ d : ℤ,
      l.countP (fun p => decide (p.1 = d))
        = if d ∈ l.map Prod.fst then 1 else 0 := by
  intro l
  induction l with
  | nil =>
    intro _ d
    simp
  | cons q rest ih =>
    intro hnd d
    simp only [List.map_cons] at hnd
    have hq := (List.nodup_cons.mp hnd).1
    have hnd' := (List.nodup_cons.mp hnd).2
    rw [List.countP_cons]
    by_cases hd : q.1 = d
    · rw [if_pos (by simpa using hd)]
      have h0 : rest.countP (fun p => decide (p.1 = d)) = 0 := by
        rw [ih hnd' d, if_neg (by rw [← hd]; exact hq)]
      rw [h0, if_pos (by
        simp only [List.map_cons, List.mem_cons]
        exact Or.inl hd.symm)]
    · rw [if_neg (by simpa using hd)]
      rw [ih hnd' d]
      by_cases hm : d ∈ rest.map Prod.fst
      · rw [if_pos hm, if_pos (by
          simp only [List.map_cons, List.mem_cons]
          exact Or.inr hm)]
      · rw [if_neg hm, if_neg (by
          simp only [List.map_cons, List.mem_cons]
          rintro (hc | hc)
          · exact hd hc.symm
          · exact hm hc)]

/-- C7: for every event list and viewer timezone, the coalesced output keeps
every non-Rahu-Kaal event unchanged, contains exactly one timed Rahu Kaal
event per viewer-local date occurring among the input's timed Rahu Kaal
start instants (and none for other dates), and each kept Rahu Kaal event
comes from the input and has the latest start instant among the input's
timed Rahu Kaal events of its viewer-local date. -/
theorem coalesce_rahukaal_for_viewer_spec (vt : ℚ → ℚ) (events : List Event) :
    ((coalesce_rahukaal_for_viewer vt events).filter (fun e => ! isTimedRK e)
        = events.filter (fun e => ! isTimedRK e)) ∧
      (∀ d : ℤ,
        (coalesce_rahukaal_for_viewer vt events).countP
            (fun e => isTimedRK e && decide (viewer_local_date vt e = d))
          = if events.countP
                (fun e => isTimedRK e && decide (viewer_local_date vt e = d))
              = 0
            then 0 else 1) ∧
      (∀ e ∈ coalesce_rahukaal_for_viewer vt events, isTimedRK e = true →
        e ∈ events ∧
          ∀ e' ∈ events, isTimedRK e' = true →
            viewer_local_date vt e' = viewer_local_date vt e →
            startUtc e' ≤ startUtc e) := by
  have hout : coalesce_rahukaal_for_viewer vt events
      = (events.filter fun e => ! isTimedRK e) ++
          (((events.filter isTimedRK).foldl
              (fun acc e => addToGroups (viewer_local_date vt e) e acc)
              []).map fun p => latest_start p.2) := rfl
  have hinv : GroupsInv (viewer_local_date vt) (events.filter isTimedRK)
      ((events.filter isTimedRK).foldl
        (fun acc e => addToGroups (viewer_local_date vt e) e acc) []) := by
    have h := groupsInv_fold (viewer_local_date vt)
      (events.filter isTimedRK) [] [] (groupsInv_nil _)
    simpa using h
  obtain ⟨hnd, hval, hcov, hkeys⟩ := hinv
  have hlatest : ∀ p ∈ (events.filter isTimedRK).foldl
      (fun acc e => addToGroups (viewer_local_date vt e) e acc) [],
      latest_start p.2 ∈ events.filter isTimedRK ∧
        viewer_local_date vt (latest_start p.2) = p.1 ∧
        ∀ x ∈ events.filter isTimedRK, viewer_local_date vt x = p.1 →
          startUtc x ≤ startUtc (latest_start p.2) := by
    intro p hp
    have hv := hval p hp
    have hne : p.2 ≠ [] := by
      have hk := hkeys p hp
      rcases List.mem_map.mp hk with ⟨e, he, hke⟩
      intro hc
      have hmm : e ∈ p.2 := by
        rw [hv]
        exact List.mem_filter.mpr ⟨he, by simp [hke]⟩
      rw [hc] at hmm
      simp at hmm
    have hmem := latest_start_mem hne
    have hmem' : latest_start p.2 ∈ (events.filter isTimedRK).filter
        (fun e => decide (viewer_local_date vt e = p.1)) := by
      rw [← hv]
      exact hmem
    refine ⟨List.mem_of_mem_filter hmem', by simpa using List.of_mem_filter hmem', ?_⟩
    intro x hx hxk
    have hxin : x ∈ p.2 := by
      rw [hv]
      exact List.mem_filter.mpr ⟨hx, by simp [hxk]⟩
    exact latest_start_le x hxin
  refine ⟨?_, ?_, ?_⟩
  · rw [hout, List.filter_append]
    have h1 : (events.filter fun e => ! isTimedRK e).filter
        (fun e => ! isTimedRK e) = events.filter fun e => ! isTimedRK e := by
      rw [List.filter_eq_self]
      intro a ha
      exact (List.mem_filter.mp ha).2
    have h2 : ((((events.filter isTimedRK).foldl
        (fun acc e => addToGroups (viewer_local_date vt e) e acc) []).map
          fun p => latest_start p.2).filter (fun e => ! isTimedRK e)) = [] := by
      rw [List.filter_eq_nil_iff]
      intro a ha
      rcases List.mem_map.mp ha with ⟨p, hp, rfl⟩
      have hrk := (hlatest p hp).1
      have := List.of_mem_filter hrk
      simp [this]
    rw [h1, h2, List.append_nil]
  · intro d
    rw [hout, List.countP_append]
    have h1 : (events.filter fun e => ! isTimedRK e).countP
        (fun e => isTimedRK e && decide (viewer_local_date vt e = d)) = 0 := by
      rw [List.countP_eq_zero]
      intro a ha
      have := List.of_mem_filter ha
      simp only [Bool.not_eq_true'] at this
      simp [this]
    have h2 : ((((events.filter isTimedRK).foldl
          (fun acc e => addToGroups (viewer_local_date vt e) e acc) []).map
            fun p => latest_start p.2).countP
          (fun e => isTimedRK e && decide (viewer_local_date vt e = d)))
        = (((events.filter isTimedRK).foldl
            (fun acc e => addToGroups (viewer_local_date vt e) e acc)
            []).countP (fun p => decide (p.1 = d))) := by
      rw [List.countP_map]
      apply List.countP_congr
      intro p hp
      have h3 := hlatest p hp
      have hrkp := List.of_mem_filter h3.1
      simp only [Function.comp_apply, hrkp, Bool.true_and, h3.2.1,
        decide_eq_true_eq]
    rw [h1, h2, countP_fst_nodup _ hnd d, Nat.zero_add]
    by_cases hc : events.countP
        (fun e => isTimedRK e && decide (viewer_local_date vt e = d)) = 0
    · rw [if_pos hc, if_neg ?_]
      intro hm
      rcases List.mem_map.mp hm with ⟨p, hp, hpd⟩
      have hk := hkeys p hp
      rcases List.mem_map.mp hk with ⟨e, he, hke⟩
      have hRK := List.of_mem_filter he
      have hmem := List.mem_of_mem_filter he
      have : events.countP
          (fun e => isTimedRK e && decide (viewer_local_date vt e = d)) ≠ 0 := by
        intro h0
        have := List.countP_eq_zero.mp h0 e hmem
        simp only [hRK, Bool.true_and, decide_eq_true_eq] at this
        exact this (by rw [hke, hpd])
      exact this hc
    · rw [if_neg hc, if_pos ?_]
      have hpos : 0 < events.countP
          (fun e => isTimedRK e && decide (viewer_local_date vt e = d)) :=
        Nat.pos_of_ne_zero hc
      rcases List.countP_pos_iff.mp hpos with ⟨e, he, hpe⟩
      simp only [Bool.and_eq_true, decide_eq_true_eq] at hpe
      have hrke : e ∈ events.filter isTimedRK :=
        List.mem_filter.mpr ⟨he, hpe.1⟩
      have := hcov e hrke
      rw [hpe.2] at this
      exact this
  · intro e he hRK
    rw [hout] at he
    rcases List.mem_append.mp he with hk | hc
    · have := List.of_mem_filter hk
      rw [hRK] at this
      simp at this
    · rcases List.mem_map.mp hc with ⟨p, hp, rfl⟩
      have h3 := hlatest p hp
      refine ⟨List.mem_of_mem_filter h3.1, ?_⟩
      intro e' he' hRK' hkey
      have he'rk : e' ∈ events.filter isTimedRK :=
        List.mem_filter.mpr ⟨he', hRK'⟩
      exact h3.2.2 e' he'rk (by rw [hkey, h3.2.1])

/-- Concrete viewer timezone (constant zero offset) for witnesses. -/
def vtEx : ℚ → ℚ := fun _ => 0

/-- Concrete timed Rahu Kaal event, early start. -/
def rk1 : Event := .timed "Rahu Kaal" ⟨3600, 19800⟩ ⟨7200, 19800⟩ "d"

/-- Concrete timed Rahu Kaal event, later start, same viewer-local date. -/
def rk2 : Event := .timed "Rahu Kaal" ⟨40000, 19800⟩ ⟨43600, 19800⟩ "d"

/-- Concrete all-day event for witnesses. -/
def adEx : Event := .allDay "Purnima" 0 "d"

/-- Concrete event list for witnesses. -/
def evListEx : List Event := [adEx, rk1, rk2]

/-- Witness for C7: on a list with two same-date timed Rahu Kaal events and
one all-day event, exactly one Rahu Kaal event remains for that date, and
the earlier one starts no later than the kept one. -/
theorem coalesce_rahukaal_for_viewer_spec_witness :
    (coalesce_rahukaal_for_viewer vtEx evListEx).countP
        (fun e => isTimedRK e && decide (viewer_local_date vtEx e = 0)) = 1 ∧
      startUtc rk1 ≤ startUtc rk2 := by
  have hco : coalesce_rahukaal_for_viewer vtEx evListEx = [adEx, rk2] := by
    with_unfolding_all rfl
  constructor
  · refine ((coalesce_rahukaal_for_viewer_spec vtEx evListEx).2.1 0).trans ?_
    with_unfolding_all rfl
  · refine ((coalesce_rahukaal_for_viewer_spec vtEx evListEx).2.2 rk2
      ?_ ?_).2 rk1 ?_ ?_ ?_
    · rw [hco]
      exact List.mem_cons_of_mem _ (List.mem_cons_self _ _)
    · with_unfolding_all rfl
    · exact List.mem_cons_of_mem _ (List.mem_cons_self _ _)
    · with_unfolding_all rfl
    · with_unfolding_all rfl

/-- Embeds the viewer-timezone step of the HTTP route `calendar` (app.py
lines 152-159): validate the label against the timezone database `tzdb`,
coalesce on success, and on an invalid label swallow the error and keep the
events unchanged. -/
def calendar_viewer_step (tzdb : String → Option (ℚ → ℚ))
    (viewer_tz : Option String) (events : List Event) : List Event :=
  match viewer_tz with
  | none => events
  | some s =>
    match tzdb s with
    | none => events
    | some vt => coalesce_rahukaal_for_viewer vt events

/-- Embeds the viewer-timezone step of the CLI `main` (cli.py lines
127-128): `coalesce_rahukaal_for_viewer` resolves the label itself (cli.py
line 15) and an unknown label raises `pytz.UnknownTimeZoneError`, which
`main` does not catch, so the failure propagates. -/
def main_viewer_step (tzdb : String → Option (ℚ → ℚ))
    (viewer_tz : Option String) (events : List Event) :
    Except String (List Event) :=
  match viewer_tz with
  | none => .ok events
  | some s =>
    match tzdb s with
    | none => .error s
    | some vt => .ok (coalesce_rahukaal_for_viewer vt events)

/-- C8 counterexample: on the CLI path an invalid viewer timezone label does
not yield the original event list — the unknown-timezone failure
propagates out of `main` instead of being swallowed. -/
theorem invalid_tz_counterexample :
    main_viewer_step (fun _ => none) (some "Not/AZone") []
      ≠ Except.ok ([] : List Event) := by
  intro hc
  simp [main_viewer_step] at hc

/-- C8 amended: when the supplied viewer timezone label is invalid, the HTTP
server path skips viewer-timezone coalescing and returns the original event
list unchanged (the failure is caught there), while the CLI path propagates
the failure to its caller instead of returning the original list. -/
theorem invalid_tz_spec (tzdb : String → Option (ℚ → ℚ)) (s : String)
    (events : List Event) (h : tzdb s = none) :
    calendar_viewer_step tzdb (some s) events = events ∧
      main_viewer_step tzdb (some s) events = Except.error s := by
  constructor
  · show (match tzdb s with
      | none => events
      | some vt => coalesce_rahukaal_for_viewer vt events) = events
    rw [h]
  · show (match tzdb s with
      | none => (Except.error s : Except String (List Event))
      | some vt => .ok (coalesce_rahukaal_for_viewer vt events))
      = Except.error s
    rw [h]

/-- Witness for C8 amended at an empty timezone database and the label
"Not/AZone". -/
theorem invalid_tz_spec_witness :
    calendar_viewer_step (fun _ => none) (some "Not/AZone") [adEx] = [adEx] ∧
      main_viewer_step (fun _ => none) (some "Not/AZone") [adEx]
        = Except.error "Not/AZone" :=
  invalid_tz_spec (fun _ => none) "Not/AZone" [adEx] rfl

/-- Embeds `AMANTA_MONTHS` (astronomy.py lines 353-354). -/
def AMANTA_MONTHS : List String :=
  ["Chaitra", "Vaisakha", "Jyeshtha", "Ashadha", "Shravana", "Bhadrapada",
   "Ashwin", "Kartika", "Margashirsha", "Pausha", "Magha", "Phalguna"]

/-- Number of days of a Gregorian year, matching the source's
`range(366)` filtered to dates of the same year. -/
def daysInYear (y : ℤ) : ℕ :=
  if (y % 4 = 0 ∧ y % 100 ≠ 0) ∨ y % 400 = 0 then 366 else 365

/-- Embeds the labelled-interval construction of `amanta_month_map_for_year`
(astronomy.py lines 374-381): consecutive lunation pairs labelled by the
sidereal solar longitude at the interval start, `idx = ⌊((λ+30) mod 360)/30⌋`.
The sidereal-longitude provider `sid` abstracts `sun_sidereal_longitude`. -/
def amanta_intervals_named (sid : ℚ → ℚ) (lun : List ℚ) :
    List (ℚ × ℚ × String) :=
  (lun.zip lun.tail).map (fun p =>
    (p.1, p.2,
      AMANTA_MONTHS.getD (⌊pymod (sid p.1 + 30) 360 / 30⌋).toNat ""))

/-- Embeds `amanta_month_map_for_year` (astronomy.py lines 362-395): when
the lunation list is empty, silently map every date of the year to
`AMANTA_MONTHS[0]`; otherwise probe each date at 12:00 UTC against the
labelled intervals, defaulting to `AMANTA_MONTHS[0]`. Dates are day
numbers, the probe instant is `86400·d + 43200` seconds. -/
def amanta_month_map_for_year (sid : ℚ → ℚ) (lun : List ℚ) (year : ℤ) :
    List (ℤ × String) :=
  if lun.isEmpty then
    (List.range (daysInYear year)).map
      (fun k => (daysFromCivil year 1 1 + (k : ℤ), AMANTA_MONTHS.headD ""))
  else
    (List.range (daysInYear year)).map (fun k =>
      (daysFromCivil year 1 1 + (k : ℤ),
        (((amanta_intervals_named sid lun).find? (fun iv =>
            decide (iv.1 ≤ 86400 * ((daysFromCivil year 1 1 + (k : ℤ) : ℤ) : ℚ)
                + 43200 ∧
              86400 * ((daysFromCivil year 1 1 + (k : ℤ) : ℤ) : ℚ) + 43200
                < iv.2.1))).map
          (fun iv => iv.2.2)).getD (AMANTA_MONTHS.headD "")))

/-- C6 evaluation at the failing input: with an empty lunation list the
mapper does not surface any "no data" condition — it silently returns the
full-year map sending every date of 2025 to the default month name
"Chaitra". -/
theorem amanta_month_map_empty_fallback :
    amanta_month_map_for_year (fun _ => 0) [] 2025
      = (List.range 365).map
          (fun k => (daysFromCivil 2025 1 1 + (k : ℤ), "Chaitra")) := by
  with_unfolding_all rfl

end HinduCalendar
